import Mathlib

/-!
# Verification of the fmc_noise evaluation engine

Shallow embedding of the fmc_noise library (expression builder in `lib.rs`,
the node evaluators in `lerp.rs`, `range.rs`, `fbm.rs`, and the grid drivers
`generate_1d` / `generate_2d` / `generate_3d`).

Machine `f32` values are embedded as exact rationals (`ℚ`); the finite range
of `f32` enters through the sentinel constants `f32MAX` / `f32MIN` used by the
min/max accumulators.  SIMD vectors of lane width `N` are embedded as lists of
rationals of length `N`; every node evaluator of the library acts lane-wise,
so the compiled pipeline evaluated on a coordinate vector is embedded as an
arbitrary scalar function mapped over the lanes.
-/

/-- Largest finite `f32` value (2^128 - 2^104), exactly, as a rational. -/
def f32MAX : ℚ := 340282346638528859811704183484516925440

/-- Smallest finite `f32` value, `-f32MAX`. -/
def f32MIN : ℚ := -340282346638528859811704183484516925440

/-- `Frequency` struct of `lib.rs`: per-axis frequency of a base noise. -/
structure Frequency where
  x : ℚ
  y : ℚ
  z : ℚ
deriving DecidableEq, Repr

/-- The `NoiseSettings` enum of `lib.rs`: one pipeline operation descriptor. -/
inductive NoiseSettings where
  | Simplex (frequency : Frequency)
  | Perlin (frequency : Frequency)
  | Constant (value : ℚ)
  | Fbm (octaves : ℕ) (gain : ℚ) (scaledAmplitude : ℚ)
  | Abs
  | Add
  | Mul
  | Clamp (min max : ℚ)
  | Max
  | Min
  | Lerp
  | Range (low high : ℚ)
  | Square
deriving DecidableEq, Repr

/-- The `Noise` struct of `lib.rs`: a seed plus a flat pipeline of settings. -/
structure Noise where
  seed : ℕ
  pipeline : List NoiseSettings
deriving DecidableEq, Repr

namespace Noise

/-- `Noise::simplex` (lib.rs). -/
def simplex (frequency : Frequency) : Noise :=
  { seed := 0, pipeline := [NoiseSettings.Simplex frequency] }

/-- `Noise::perlin` (lib.rs). -/
def perlin (frequency : Frequency) : Noise :=
  { seed := 0, pipeline := [NoiseSettings.Perlin frequency] }

/-- `Noise::constant` (lib.rs). -/
def constant (value : ℚ) : Noise :=
  { seed := 0, pipeline := [NoiseSettings.Constant value] }

/-- `Noise::seed` (lib.rs): overwrite the seed field.  (`Noise.seed` itself
is taken by the field projection, so the method is embedded as `setSeed`.) -/
def setSeed (n : Noise) (s : ℕ) : Noise := { n with seed := s }

/-- `Noise::abs` (lib.rs). -/
def abs (n : Noise) : Noise := { n with pipeline := n.pipeline ++ [NoiseSettings.Abs] }

/-- `Noise::add` (lib.rs): append the other pipeline, push `Add`. -/
def add (a b : Noise) : Noise :=
  { a with pipeline := a.pipeline ++ b.pipeline ++ [NoiseSettings.Add] }

/-- `Noise::mul` (lib.rs). -/
def mul (a b : Noise) : Noise :=
  { a with pipeline := a.pipeline ++ b.pipeline ++ [NoiseSettings.Mul] }

/-- `Noise::clamp` (lib.rs). -/
def clamp (n : Noise) (lo hi : ℚ) : Noise :=
  { n with pipeline := n.pipeline ++ [NoiseSettings.Clamp lo hi] }

/-- `Noise::max` (lib.rs). -/
def max (a b : Noise) : Noise :=
  { a with pipeline := a.pipeline ++ b.pipeline ++ [NoiseSettings.Max] }

/-- `Noise::min` (lib.rs). -/
def min (a b : Noise) : Noise :=
  { a with pipeline := a.pipeline ++ b.pipeline ++ [NoiseSettings.Min] }

/-- `Noise::lerp` (lib.rs): append `high` then `low`, push `Lerp`. -/
def lerp (a low high : Noise) : Noise :=
  { a with pipeline := a.pipeline ++ high.pipeline ++ low.pipeline ++ [NoiseSettings.Lerp] }

/-- `Noise::range` (lib.rs): append `high_noise` then `low_noise`, push `Range`. -/
def range (a : Noise) (low high : ℚ) (lowNoise highNoise : Noise) : Noise :=
  { a with pipeline :=
      a.pipeline ++ highNoise.pipeline ++ lowNoise.pipeline ++ [NoiseSettings.Range low high] }

/-- `Noise::square` (lib.rs). -/
def square (n : Noise) : Noise := { n with pipeline := n.pipeline ++ [NoiseSettings.Square] }

end Noise

/-- The `scaled_amplitude` accumulation loop of `Noise::fbm` (lib.rs lines
148-153): `amp = gain; s = 1.0; repeat { s += amp; amp *= gain }`, with the
iteration count `octaves - 1` passed as the first numeric argument. -/
def fbmSumLoop (gain : ℚ) : ℕ → ℚ → ℚ → ℚ
  | 0, _, s => s
  | n + 1, amp, s => fbmSumLoop gain n (amp * gain) (s + amp)

/-- One frequency-scaling access of the fbm lowering loop (lib.rs lines
163-179): multiply the per-axis frequencies of the element at `idx` by `lac`
when it is a `Simplex` or `Perlin` node, otherwise leave the pipeline alone. -/
def scaleFreqAt (p : List NoiseSettings) (idx : ℕ) (lac : ℚ) : List NoiseSettings :=
  match p.get? idx with
  | some (NoiseSettings.Simplex fr) =>
      p.set idx (NoiseSettings.Simplex ⟨fr.x * lac, fr.y * lac, fr.z * lac⟩)
  | some (NoiseSettings.Perlin fr) =>
      p.set idx (NoiseSettings.Perlin ⟨fr.x * lac, fr.y * lac, fr.z * lac⟩)
  | _ => p

/-- The fbm lowering loop of `Noise::fbm` (lib.rs lines 162-181):
`for i in (1..octaves).rev()`, scale the frequency of the element at
`pipeline.len() - len` by `lacunarity.powi(i - 1)` and then
`extend_from_within(0..len)`.  The counter argument here is the Rust loop
variable `i`; the loop body for `i = j + 1` scales by `lac ^ j`. -/
def fbmLoop (lac : ℚ) (len : ℕ) : ℕ → List NoiseSettings → List NoiseSettings
  | 0, p => p
  | j + 1, p =>
      let p1 := scaleFreqAt p (p.length - len) (lac ^ j)
      fbmLoop lac len j (p1 ++ p1.take len)

/-- `Noise::fbm` (lib.rs lines 140-189).  The Rust function asserts
`octaves > 0`; the panic is embedded as `none`. -/
def Noise.fbm (n : Noise) (octaves : ℕ) (gain lacunarity : ℚ) : Option Noise :=
  if octaves = 0 then none
  else
    let scaledAmplitude : ℚ := 1 / fbmSumLoop gain (octaves - 1) gain 1
    let len := n.pipeline.length
    let p := fbmLoop lacunarity len (octaves - 1) n.pipeline
    some { n with pipeline := p ++ [NoiseSettings.Fbm octaves gain scaledAmplitude] }

/-- The base-noise frequencies (x-axis) occurring along a pipeline, in
pipeline order. -/
def pipelineFreqs (p : List NoiseSettings) : List ℚ :=
  p.filterMap fun s =>
    match s with
    | NoiseSettings.Simplex fr => some fr.x
    | NoiseSettings.Perlin fr => some fr.x
    | _ => none

/-- `lerp_1d` (lerp.rs lines 8-29), with the three children embedded as the
scalar functions their `function_1d` pointers compute per lane:
`interpolation = selector.mul_add(0.5, 1.0)`, result
`(high - low).mul_add(interpolation, low)`. -/
def lerp_1d (selector low_source high_source : ℚ → ℚ) (x : ℚ) : ℚ :=
  let high := high_source x
  let low := low_source x
  let interpolation := selector x * (1 / 2) + 1
  (high - low) * interpolation + low

/-- `lerp_2d` (lerp.rs lines 31-56): `range = high - low`,
`interpolation = (selector + 1) * 0.5`, result `range * interpolation`. -/
def lerp_2d (selector low_source high_source : ℚ → ℚ → ℚ) (x y : ℚ) : ℚ :=
  let r := high_source x y - low_source x y
  let interpolation := (selector x y + 1) * (1 / 2)
  r * interpolation

/-- `lerp_3d` (lerp.rs lines 58-86):
`interpolation = (selector + 1) * 0.5`, result
`(high_noise - low_noise).mul_add(interpolation, low_noise)`. -/
def lerp_3d (selector low_source high_source : ℚ → ℚ → ℚ → ℚ) (x y z : ℚ) : ℚ :=
  let low_noise := low_source x y z
  let high_noise := high_source x y z
  let interpolation := (selector x y z + 1) * (1 / 2)
  (high_noise - low_noise) * interpolation + low_noise

/-- The per-lane lerp output claimed by the spec: `low + (high - low) * t`
with `t = (selector + 1) * 0.5`. -/
def specLerp (sel low high : ℚ) : ℚ := low + (high - low) * ((sel + 1) * (1 / 2))

/-- `range_1d` (range.rs lines 8-41), children embedded as scalar per-lane
functions; the two `select`s become nested conditionals per lane. -/
def range_1d (high low : ℚ) (selector low_source high_source : ℚ → ℚ) (x : ℚ) : ℚ :=
  let selection_noise := selector x
  let low_noise := low_source x
  let high_noise := high_source x
  let interpolation :=
    (high_noise - low_noise) * ((selection_noise - low) / (high - low)) + low_noise
  let result := if high < selection_noise then high_noise else interpolation
  if selection_noise < low then low_noise else result

/-- `range_2d` (range.rs lines 43-81). -/
def range_2d (high low : ℚ) (selector low_source high_source : ℚ → ℚ → ℚ) (x y : ℚ) : ℚ :=
  let selection_noise := selector x y
  let low_noise := low_source x y
  let high_noise := high_source x y
  let interpolation :=
    (high_noise - low_noise) * ((selection_noise - low) / (high - low)) + low_noise
  let result := if high < selection_noise then high_noise else interpolation
  if selection_noise < low then low_noise else result

/-- `range_3d` (range.rs lines 83-122). -/
def range_3d (high low : ℚ) (selector low_source high_source : ℚ → ℚ → ℚ → ℚ)
    (x y z : ℚ) : ℚ :=
  let selection_noise := selector x y z
  let low_noise := low_source x y z
  let high_noise := high_source x y z
  let interpolation :=
    (high_noise - low_noise) * ((selection_noise - low) / (high - low)) + low_noise
  let result := if high < selection_noise then high_noise else interpolation
  if selection_noise < low then low_noise else result

/-- Mutable state of a `generate_*` call (lib.rs): the output buffer (entries
still unwritten are `none`, mirroring the `set_len` on uninitialized memory),
the running write index `i`, the vector min/max accumulators `min_s` / `max_s`
(lane lists of length `N`) and the scalar remainder accumulators `min` /
`max`. -/
structure GState where
  result : List (Option ℚ)
  i : ℕ
  minS : List ℚ
  maxS : List ℚ
  minV : ℚ
  maxV : ℚ
deriving DecidableEq, Repr

/-- The coordinate vector `[t0 + 0, t0 + 1, ..., t0 + (N-1)]` built by the
`x_arr` / `y_arr` initialization loops of the grid drivers. -/
def lanes (N : ℕ) (t0 : ℚ) : List ℚ := List.map (fun l : ℕ => t0 + (l : ℚ)) (List.range N)

/-- `f.copy_to_slice(&mut result[i..])`: write the lane values of `f` at
consecutive indices starting at `i`. -/
def writeLanes : List (Option ℚ) → ℕ → List ℚ → List (Option ℚ)
  | res, _, [] => res
  | res, i, v :: vs => writeLanes (res.set i (some v)) (i + 1) vs

/-- The full-block loop `for _ in 0..extent / vector_width` of a grid driver:
each iteration evaluates the pipeline on the lane vector `xs` (embedded as
`xs.map e`), folds the lanes into the vector min/max accumulators, copies the
lanes to the buffer, advances `i` by `N` and the coordinate vector by
`splat(N)`.  Returns the final state and the final coordinate vector. -/
def fullBlocksAux (e : ℚ → ℚ) (N : ℕ) : ℕ → List ℚ → GState → GState × List ℚ
  | 0, xs, st => (st, xs)
  | k + 1, xs, st =>
      let f := xs.map e
      fullBlocksAux e N k (xs.map fun t => t + (N : ℚ))
        { st with
          maxS := List.zipWith Max.max st.maxS f
          minS := List.zipWith Min.min st.minS f
          result := writeLanes st.result st.i f
          i := st.i + N }

/-- The remainder loop `for j in 0..remainder` of a grid driver, applied to
the valid leading lanes of the final partial block: write each value and fold
it into the scalar min/max accumulators. -/
def writeScalars : List ℚ → GState → GState
  | [], st => st
  | v :: vs, st =>
      writeScalars vs
        { st with
          result := st.result.set st.i (some v)
          i := st.i + 1
          minV := if v < st.minV then v else st.minV
          maxV := if st.maxV < v then v else st.maxV }

/-- One innermost line of a grid driver: `extent / N` full blocks starting
from the coordinate vector `lanes N t0`, then, when `extent % N ≠ 0`, one
further full-width evaluation of which only the leading `extent % N` lanes
are written and counted. -/
def genLine (e : ℚ → ℚ) (N extent : ℕ) (t0 : ℚ) (st : GState) : GState :=
  let p := fullBlocksAux e N (extent / N) (lanes N t0) st
  if extent % N = 0 then p.1
  else writeScalars ((p.2.map e).take (extent % N)) p.1

/-- Initial driver state: an uninitialized buffer of `size` entries,
`min_s = splat(f32::MAX)`, `max_s = splat(f32::MIN)`, `min = f32::MAX`,
`max = f32::MIN`. -/
def initState (size N : ℕ) : GState :=
  { result := List.replicate size none
    i := 0
    minS := List.replicate N f32MAX
    maxS := List.replicate N f32MIN
    minV := f32MAX
    maxV := f32MIN }

/-- The final scalar merge `for i in 0..vector_width { if min_s[i] < min ... }`
of a grid driver. -/
def mergeMin (st : GState) : ℚ :=
  st.minS.foldl (fun m v => if v < m then v else m) st.minV

/-- The final scalar merge for the maximum. -/
def mergeMax (st : GState) : ℚ :=
  st.maxS.foldl (fun m v => if m < v then v else m) st.maxV

/-- Read the returned buffer out of the write-tracking representation. -/
def extractBuf (l : List (Option ℚ)) : List ℚ := l.map fun o => o.getD 0

/-- `generate_1d` (lib.rs lines 524-587), final driver state.  The compiled
pipeline is embedded as the scalar-per-lane function `e`. -/
def generate_1d_raw (e : ℚ → ℚ) (x : ℚ) (width N : ℕ) : GState :=
  genLine e N width x (initState width N)

/-- `generate_1d` (lib.rs): buffer, reported min, reported max. -/
def generate_1d (e : ℚ → ℚ) (x : ℚ) (width N : ℕ) : List ℚ × ℚ × ℚ :=
  let st := generate_1d_raw e x width N
  (extractBuf st.result, mergeMin st, mergeMax st)

/-- The outer `for _ in 0..height` loop of `generate_2d`: each iteration
resets the x lane vector to `x_arr`, runs one x-line, then advances `y` by
one. -/
def gen2Rows (e2 : ℚ → ℚ → ℚ) (N width : ℕ) (x : ℚ) : ℕ → ℚ → GState → GState
  | 0, _, st => st
  | h + 1, y, st => gen2Rows e2 N width x h (y + 1) (genLine (fun t => e2 t y) N width x st)

/-- `generate_2d` (lib.rs lines 589-658), final driver state. -/
def generate_2d_raw (e2 : ℚ → ℚ → ℚ) (x y : ℚ) (width height N : ℕ) : GState :=
  gen2Rows e2 N width x height y (initState (width * height) N)

/-- `generate_2d` (lib.rs): buffer, reported min, reported max. -/
def generate_2d (e2 : ℚ → ℚ → ℚ) (x y : ℚ) (width height N : ℕ) : List ℚ × ℚ × ℚ :=
  let st := generate_2d_raw e2 x y width height N
  (extractBuf st.result, mergeMin st, mergeMax st)

/-- The middle `for _ in 0..depth` loop of `generate_3d`: each iteration
resets the y lane vector, runs one y-line at the current `(x, z)`, then
advances `z` by one. -/
def gen3Depth (e3 : ℚ → ℚ → ℚ → ℚ) (N height : ℕ) (y xc : ℚ) : ℕ → ℚ → GState → GState
  | 0, _, st => st
  | d + 1, z, st =>
      gen3Depth e3 N height y xc d (z + 1) (genLine (fun t => e3 xc t z) N height y st)

/-- The outer `for _ in 0..width` loop of `generate_3d`: each iteration runs
the depth loop at the current `x`, then advances `x` by one. -/
def gen3Width (e3 : ℚ → ℚ → ℚ → ℚ) (N height depth : ℕ) (y z : ℚ) :
    ℕ → ℚ → GState → GState
  | 0, _, st => st
  | w + 1, xc, st => gen3Width e3 N height depth y z w (xc + 1) (gen3Depth e3 N height y xc depth z st)

/-- `generate_3d` (lib.rs lines 660-743), final driver state. -/
def generate_3d_raw (e3 : ℚ → ℚ → ℚ → ℚ) (x y z : ℚ) (width height depth N : ℕ) : GState :=
  gen3Width e3 N height depth y z width x (initState (width * height * depth) N)

/-- `generate_3d` (lib.rs): buffer, reported min, reported max. -/
def generate_3d (e3 : ℚ → ℚ → ℚ → ℚ) (x y z : ℚ) (width height depth N : ℕ) :
    List ℚ × ℚ × ℚ :=
  let st := generate_3d_raw e3 x y z width height depth N
  (extractBuf st.result, mergeMin st, mergeMax st)

/-! ## Helper lemmas for the fbm amplitude sum -/

/-- The `scaled_amplitude` loop computes `s + amp * (1 + g + ... + g^(k-1))`. -/
theorem fbmSumLoop_eq (g : ℚ) : ∀ (k : ℕ) (amp s : ℚ),
    fbmSumLoop g k amp s = s + amp * ∑ i in Finset.range k, g ^ i := by
  intro k
  induction k with
  | zero => intro amp s; simp [fbmSumLoop]
  | succ n ih =>
      intro amp s
      rw [fbmSumLoop, ih, geom_sum_succ]
      ring

/-! ## Claim theorems: construction layer -/

/-- C1: the lerp evaluators do not all compute `low + (high - low) * t` with
`t = (selector + 1) * 0.5`.  At selector `0`, low branch `2`, high branch `4`
the spec formula gives `3`; `lerp_1d` returns `4` (it computes
`selector * 0.5 + 1.0`, remapping `[-1, 1]` to `[0.5, 1.5]` instead of
`[0, 1]`, contradicting its own comment) and `lerp_2d` returns `1` (it drops
the final `+ low`).  Only `lerp_3d` matches the spec formula. -/
theorem lerp_evaluators_deviate_from_spec :
    lerp_1d (fun _ => 0) (fun _ => 2) (fun _ => 4) 0 = 4 ∧
    lerp_2d (fun _ _ => 0) (fun _ _ => 2) (fun _ _ => 4) 0 0 = 1 ∧
    lerp_3d (fun _ _ _ => 0) (fun _ _ _ => 2) (fun _ _ _ => 4) 0 0 0 = 3 ∧
    specLerp 0 2 4 = 3 := by
  refine ⟨?_, ?_, ?_, ?_⟩ <;> norm_num [lerp_1d, lerp_2d, lerp_3d, specLerp]

/-- C3: the fbm lowering loop does not produce the frequency schedule
`f * lacunarity^i` claimed by the spec.  For a simplex source of frequency 1
and `lacunarity = 2`: with 2 octaves both physical copies keep frequency `1`
(the claimed schedule is `[2, 1]`), and with 3 octaves all three copies carry
frequency `2` (the claimed schedule is `[4, 2, 1]`). -/
theorem fbm_lacunarity_schedule_diverges :
    ((Noise.simplex ⟨1, 1, 1⟩).fbm 2 (1 / 2) 2).map (fun m => pipelineFreqs m.pipeline)
      = some [1, 1] ∧
    ((Noise.simplex ⟨1, 1, 1⟩).fbm 3 (1 / 2) 2).map (fun m => pipelineFreqs m.pipeline)
      = some [2, 2, 2] ∧
    ([(1 : ℚ), 1] ≠ [2, 1] ∧ [(2 : ℚ), 2, 2] ≠ [4, 2, 1]) := by
  refine ⟨?_, ?_, by norm_num, by norm_num⟩ <;>
    norm_num [Noise.fbm, Noise.simplex, fbmLoop, fbmSumLoop, scaleFreqAt, pipelineFreqs,
      List.filterMap_cons]

/-- C6: whenever `Noise::fbm` succeeds, the `Fbm` node pushed at the end of
the pipeline stores the amplitude-normalization factor
`1 / (gain^0 + gain^1 + ... + gain^(octaves-1))`, the sum being accumulated
from the lowest exponent upward. -/
theorem fbm_normalization_factor (n : Noise) (octaves : ℕ) (gain lacunarity : ℚ)
    (m : Noise) (h : n.fbm octaves gain lacunarity = some m) :
    m.pipeline.getLast? =
      some (NoiseSettings.Fbm octaves gain (1 / ∑ i in Finset.range octaves, gain ^ i)) := by
  unfold Noise.fbm at h
  by_cases hoct : octaves = 0
  · simp [hoct] at h
  · simp only [hoct, if_false, Option.some.injEq] at h
    subst h
    simp only [List.getLast?_concat, Option.some.injEq]
    have hsum : fbmSumLoop gain (octaves - 1) gain 1 = ∑ i in Finset.range octaves, gain ^ i := by
      rw [fbmSumLoop_eq]
      obtain ⟨k, rfl⟩ : ∃ k, octaves = k + 1 := ⟨octaves - 1, (Nat.succ_pred_eq_of_pos
        (Nat.pos_of_ne_zero hoct)).symm⟩
      rw [geom_sum_succ]
      simp only [Nat.add_sub_cancel]
      ring
    rw [hsum]

/-- Witness for C6 at a concrete input: a simplex source, 2 octaves,
gain 1/2. -/
theorem fbm_normalization_factor_witness :
    ({ seed := 0,
       pipeline := [NoiseSettings.Simplex ⟨1, 1, 1⟩, NoiseSettings.Simplex ⟨1, 1, 1⟩,
         NoiseSettings.Fbm 2 (1 / 2) (2 / 3)] } : Noise).pipeline.getLast? =
      some (NoiseSettings.Fbm 2 (1 / 2) (1 / ∑ i in Finset.range 2, (1 / 2 : ℚ) ^ i)) :=
  fbm_normalization_factor (Noise.simplex ⟨1, 1, 1⟩) 2 (1 / 2) 2 _ (by
    norm_num [Noise.fbm, Noise.simplex, fbmLoop, fbmSumLoop, scaleFreqAt])

/-- C8: `Noise::fbm` fails (panics, embedded as `none`) exactly when
`octaves = 0`; for every `octaves ≥ 1` it returns a noise normally. -/
theorem fbm_fails_iff_zero_octaves (n : Noise) (octaves : ℕ) (gain lacunarity : ℚ) :
    n.fbm octaves gain lacunarity = none ↔ octaves = 0 := by
  unfold Noise.fbm
  by_cases h : octaves = 0 <;> simp [h]

/-- C9: every binary combinator keeps the receiver's seed and discards the
other operand's seed. -/
theorem combinators_keep_receiver_seed (a b low high lowNoise highNoise : Noise)
    (lo hi : ℚ) :
    (a.add b).seed = a.seed ∧
    (a.mul b).seed = a.seed ∧
    (a.max b).seed = a.seed ∧
    (a.min b).seed = a.seed ∧
    (a.lerp low high).seed = a.seed ∧
    (a.range lo hi lowNoise highNoise).seed = a.seed :=
  ⟨rfl, rfl, rfl, rfl, rfl, rfl⟩

/-! ## Claim theorems: range evaluators -/

/-- C7: with ordered bounds `low ≤ high`, each range evaluator returns the
high branch where the selector exceeds `high`, the low branch where the
selector is below `low`, and otherwise the linear blend
`low_noise + (high_noise - low_noise) * (selector - low) / (high - low)`,
per lane, at every rank. -/
theorem range_piecewise_semantics (low high : ℚ) (hlh : low ≤ high)
    (s1 l1 h1 : ℚ → ℚ) (s2 l2 h2 : ℚ → ℚ → ℚ) (s3 l3 h3 : ℚ → ℚ → ℚ → ℚ) (x y z : ℚ) :
    ((high < s1 x → range_1d high low s1 l1 h1 x = h1 x) ∧
     (s1 x < low → range_1d high low s1 l1 h1 x = l1 x) ∧
     (low ≤ s1 x → s1 x ≤ high →
       range_1d high low s1 l1 h1 x =
         l1 x + (h1 x - l1 x) * (s1 x - low) / (high - low))) ∧
    ((high < s2 x y → range_2d high low s2 l2 h2 x y = h2 x y) ∧
     (s2 x y < low → range_2d high low s2 l2 h2 x y = l2 x y) ∧
     (low ≤ s2 x y → s2 x y ≤ high →
       range_2d high low s2 l2 h2 x y =
         l2 x y + (h2 x y - l2 x y) * (s2 x y - low) / (high - low))) ∧
    ((high < s3 x y z → range_3d high low s3 l3 h3 x y z = h3 x y z) ∧
     (s3 x y z < low → range_3d high low s3 l3 h3 x y z = l3 x y z) ∧
     (low ≤ s3 x y z → s3 x y z ≤ high →
       range_3d high low s3 l3 h3 x y z =
         l3 x y z + (h3 x y z - l3 x y z) * (s3 x y z - low) / (high - low))) := by
  refine ⟨⟨?_, ?_, ?_⟩, ⟨?_, ?_, ?_⟩, ⟨?_, ?_, ?_⟩⟩
  · intro hgt
    have hnlt : ¬ s1 x < low := not_lt.mpr (hlh.trans hgt.le)
    simp only [range_1d, if_pos hgt, if_neg hnlt]
  · intro hlt
    simp only [range_1d, if_pos hlt]
  · intro hge hle
    simp only [range_1d, if_neg (not_lt.mpr hle), if_neg (not_lt.mpr hge)]
    ring
  · intro hgt
    have hnlt : ¬ s2 x y < low := not_lt.mpr (hlh.trans hgt.le)
    simp only [range_2d, if_pos hgt, if_neg hnlt]
  · intro hlt
    simp only [range_2d, if_pos hlt]
  · intro hge hle
    simp only [range_2d, if_neg (not_lt.mpr hle), if_neg (not_lt.mpr hge)]
    ring
  · intro hgt
    have hnlt : ¬ s3 x y z < low := not_lt.mpr (hlh.trans hgt.le)
    simp only [range_3d, if_pos hgt, if_neg hnlt]
  · intro hlt
    simp only [range_3d, if_pos hlt]
  · intro hge hle
    simp only [range_3d, if_neg (not_lt.mpr hle), if_neg (not_lt.mpr hge)]
    ring

/-- Witness for C7 at concrete inputs: bounds `[0, 1]`, all three cases of the
1-dimensional evaluator. -/
theorem range_piecewise_semantics_witness :
    range_1d 1 0 (fun _ => 2) (fun _ => 5) (fun _ => 7) 0 = 7 ∧
    range_1d 1 0 (fun _ => -2) (fun _ => 5) (fun _ => 7) 0 = 5 ∧
    range_1d 1 0 (fun _ => 1 / 2) (fun _ => 0) (fun _ => 1) 0 =
      0 + (1 - 0) * (1 / 2 - 0) / (1 - 0) := by
  have h := range_piecewise_semantics 0 1 (by norm_num)
    (fun _ => 2) (fun _ => 5) (fun _ => 7)
    (fun _ _ => 0) (fun _ _ => 0) (fun _ _ => 0)
    (fun _ _ _ => 0) (fun _ _ _ => 0) (fun _ _ _ => 0) 0 0 0
  have h2 := range_piecewise_semantics 0 1 (by norm_num)
    (fun _ => -2) (fun _ => 5) (fun _ => 7)
    (fun _ _ => 0) (fun _ _ => 0) (fun _ _ => 0)
    (fun _ _ _ => 0) (fun _ _ _ => 0) (fun _ _ _ => 0) 0 0 0
  have h3 := range_piecewise_semantics 0 1 (by norm_num)
    (fun _ => 1 / 2) (fun _ => 0) (fun _ => 1)
    (fun _ _ => 0) (fun _ _ => 0) (fun _ _ => 0)
    (fun _ _ _ => 0) (fun _ _ _ => 0) (fun _ _ _ => 0) 0 0 0
  exact ⟨h.1.1 (by norm_num), h2.1.2.1 (by norm_num), h3.1.2.2 (by norm_num) (by norm_num)⟩

/-- C10: in the degenerate inverted-bounds case (`low > high`), a lane whose
selector is simultaneously above `high` and below `low` receives the
low-branch value at every rank: the low-bound `select` is applied after the
high-bound `select` and wins. -/
theorem range_inverted_bounds_low_precedence (low high : ℚ)
    (s1 l1 h1 : ℚ → ℚ) (s2 l2 h2 : ℚ → ℚ → ℚ) (s3 l3 h3 : ℚ → ℚ → ℚ → ℚ) (x y z : ℚ) :
    (high < s1 x → s1 x < low → range_1d high low s1 l1 h1 x = l1 x) ∧
    (high < s2 x y → s2 x y < low → range_2d high low s2 l2 h2 x y = l2 x y) ∧
    (high < s3 x y z → s3 x y z < low → range_3d high low s3 l3 h3 x y z = l3 x y z) := by
  refine ⟨fun _ hlt => ?_, fun _ hlt => ?_, fun _ hlt => ?_⟩
  · simp only [range_1d, if_pos hlt]
  · simp only [range_2d, if_pos hlt]
  · simp only [range_3d, if_pos hlt]

/-- Witness for C10: bounds inverted to `low = 1 > 0 = high`, selector `1/2`
between them, distinct branch values. -/
theorem range_inverted_bounds_low_precedence_witness :
    range_1d 0 1 (fun _ => 1 / 2) (fun _ => 5) (fun _ => 7) 0 = 5 ∧
    range_2d 0 1 (fun _ _ => 1 / 2) (fun _ _ => 5) (fun _ _ => 7) 0 0 = 5 ∧
    range_3d 0 1 (fun _ _ _ => 1 / 2) (fun _ _ _ => 5) (fun _ _ _ => 7) 0 0 0 = 5 := by
  have h := range_inverted_bounds_low_precedence 1 0
    (fun _ => 1 / 2) (fun _ => 5) (fun _ => 7)
    (fun _ _ => 1 / 2) (fun _ _ => 5) (fun _ _ => 7)
    (fun _ _ _ => 1 / 2) (fun _ _ _ => 5) (fun _ _ _ => 7) 0 0 0
  exact ⟨h.1 (by norm_num) (by norm_num), h.2.1 (by norm_num) (by norm_num),
    h.2.2 (by norm_num) (by norm_num)⟩

/-! ## Helper lemmas for the grid drivers -/

theorem ifmin_le_init (m v : ℚ) : (if v < m then v else m) ≤ m := by
  split
  · exact le_of_lt (by assumption)
  · exact le_refl m

theorem ifmin_le_new (m v : ℚ) : (if v < m then v else m) ≤ v := by
  split
  · exact le_refl v
  · exact not_lt.mp (by assumption)

theorem ifmax_init_le (m v : ℚ) : m ≤ (if m < v then v else m) := by
  split
  · exact le_of_lt (by assumption)
  · exact le_refl m

theorem ifmax_new_le (m v : ℚ) : v ≤ (if m < v then v else m) := by
  split
  · exact le_refl v
  · exact not_lt.mp (by assumption)

theorem foldl_ifmin_eq_foldl_min : ∀ (l : List ℚ) (a : ℚ),
    l.foldl (fun m v => if v < m then v else m) a = l.foldl Min.min a := by
  intro l
  induction l with
  | nil => intro a; rfl
  | cons v vs ih =>
      intro a
      simp only [List.foldl_cons, ih]
      congr 1
      rcases lt_trichotomy v a with h | h | h
      · simp [if_pos h, min_eq_right h.le]
      · simp [h]
      · simp [if_neg (not_lt.mpr h.le), min_eq_left h.le]

theorem foldl_ifmax_eq_foldl_max : ∀ (l : List ℚ) (a : ℚ),
    l.foldl (fun m v => if m < v then v else m) a = l.foldl Max.max a := by
  intro l
  induction l with
  | nil => intro a; rfl
  | cons v vs ih =>
      intro a
      simp only [List.foldl_cons, ih]
      congr 1
      rcases lt_trichotomy a v with h | h | h
      · simp [if_pos h, max_eq_right h.le]
      · simp [h]
      · simp [if_neg (not_lt.mpr h.le), max_eq_left h.le]

theorem foldl_min_le_init : ∀ (l : List ℚ) (a : ℚ), l.foldl Min.min a ≤ a := by
  intro l
  induction l with
  | nil => intro a; exact le_refl a
  | cons v vs ih =>
      intro a
      exact le_trans (ih (Min.min a v)) (min_le_left a v)

theorem foldl_min_le_mem : ∀ (l : List ℚ) (a v : ℚ), v ∈ l → l.foldl Min.min a ≤ v := by
  intro l
  induction l with
  | nil => intro a v h; exact absurd h (List.not_mem_nil v)
  | cons w ws ih =>
      intro a v h
      rcases List.mem_cons.mp h with rfl | h2
      · exact le_trans (foldl_min_le_init ws (Min.min a v)) (min_le_right a v)
      · exact ih (Min.min a w) v h2

theorem foldl_min_mem : ∀ (l : List ℚ) (a : ℚ),
    l.foldl Min.min a = a ∨ l.foldl Min.min a ∈ l := by
  intro l
  induction l with
  | nil => intro a; exact Or.inl rfl
  | cons v vs ih =>
      intro a
      rcases ih (Min.min a v) with h | h
      · rcases min_cases a v with ⟨hm, _⟩ | ⟨hm, _⟩
        · exact Or.inl (h.trans hm)
        · exact Or.inr (List.mem_cons.mpr (Or.inl (h.trans hm)))
      · exact Or.inr (List.mem_cons.mpr (Or.inr h))

theorem foldl_max_init_le : ∀ (l : List ℚ) (a : ℚ), a ≤ l.foldl Max.max a := by
  intro l
  induction l with
  | nil => intro a; exact le_refl a
  | cons v vs ih =>
      intro a
      exact le_trans (le_max_left a v) (ih (Max.max a v))

theorem foldl_max_mem_le : ∀ (l : List ℚ) (a v : ℚ), v ∈ l → v ≤ l.foldl Max.max a := by
  intro l
  induction l with
  | nil => intro a v h; exact absurd h (List.not_mem_nil v)
  | cons w ws ih =>
      intro a v h
      rcases List.mem_cons.mp h with rfl | h2
      · exact le_trans (le_max_right a v) (foldl_max_init_le ws (Max.max a v))
      · exact ih (Max.max a w) v h2

theorem foldl_max_mem : ∀ (l : List ℚ) (a : ℚ),
    l.foldl Max.max a = a ∨ l.foldl Max.max a ∈ l := by
  intro l
  induction l with
  | nil => intro a; exact Or.inl rfl
  | cons v vs ih =>
      intro a
      rcases ih (Max.max a v) with h | h
      · rcases max_cases a v with ⟨hm, _⟩ | ⟨hm, _⟩
        · exact Or.inl (h.trans hm)
        · exact Or.inr (List.mem_cons.mpr (Or.inl (h.trans hm)))
      · exact Or.inr (List.mem_cons.mpr (Or.inr h))

theorem zipmin_mem : ∀ (l f : List ℚ), ∀ u ∈ List.zipWith Min.min l f, u ∈ l ∨ u ∈ f := by
  intro l
  induction l with
  | nil => intro f u h; simp at h
  | cons a l2 ih =>
      intro f u h
      cases f with
      | nil => simp at h
      | cons b f2 =>
          rcases List.mem_cons.mp h with rfl | h2
          · rcases min_cases a b with ⟨hm, _⟩ | ⟨hm, _⟩
            · exact Or.inl (by rw [hm]; exact List.mem_cons_self a l2)
            · exact Or.inr (by rw [hm]; exact List.mem_cons_self b f2)
          · rcases ih f2 u h2 with h3 | h3
            · exact Or.inl (List.mem_cons_of_mem a h3)
            · exact Or.inr (List.mem_cons_of_mem b h3)

theorem zipmin_left_cover : ∀ (l f : List ℚ), l.length ≤ f.length →
    ∀ m ∈ l, ∃ u ∈ List.zipWith Min.min l f, u ≤ m := by
  intro l
  induction l with
  | nil => intro f _ m h; exact absurd h (List.not_mem_nil m)
  | cons a l2 ih =>
      intro f hlen m h
      cases f with
      | nil => simp at hlen
      | cons b f2 =>
          rcases List.mem_cons.mp h with rfl | h2
          · exact ⟨Min.min m b, List.mem_cons_self _ _, min_le_left m b⟩
          · obtain ⟨u, hu, hle⟩ := ih f2 (Nat.le_of_succ_le_succ hlen) m h2
            exact ⟨u, List.mem_cons_of_mem _ hu, hle⟩

theorem zipmin_right_cover : ∀ (l f : List ℚ), f.length ≤ l.length →
    ∀ v ∈ f, ∃ u ∈ List.zipWith Min.min l f, u ≤ v := by
  intro l
  induction l with
  | nil =>
      intro f hlen v h
      cases f with
      | nil => exact absurd h (List.not_mem_nil v)
      | cons b f2 => simp at hlen
  | cons a l2 ih =>
      intro f hlen v h
      cases f with
      | nil => exact absurd h (List.not_mem_nil v)
      | cons b f2 =>
          rcases List.mem_cons.mp h with rfl | h2
          · exact ⟨Min.min a v, List.mem_cons_self _ _, min_le_right a v⟩
          · obtain ⟨u, hu, hle⟩ := ih f2 (Nat.le_of_succ_le_succ hlen) v h2
            exact ⟨u, List.mem_cons_of_mem _ hu, hle⟩

theorem zipmax_mem : ∀ (l f : List ℚ), ∀ u ∈ List.zipWith Max.max l f, u ∈ l ∨ u ∈ f := by
  intro l
  induction l with
  | nil => intro f u h; simp at h
  | cons a l2 ih =>
      intro f u h
      cases f with
      | nil => simp at h
      | cons b f2 =>
          rcases List.mem_cons.mp h with rfl | h2
          · rcases max_cases a b with ⟨hm, _⟩ | ⟨hm, _⟩
            · exact Or.inl (by rw [hm]; exact List.mem_cons_self a l2)
            · exact Or.inr (by rw [hm]; exact List.mem_cons_self b f2)
          · rcases ih f2 u h2 with h3 | h3
            · exact Or.inl (List.mem_cons_of_mem a h3)
            · exact Or.inr (List.mem_cons_of_mem b h3)

theorem zipmax_left_cover : ∀ (l f : List ℚ), l.length ≤ f.length →
    ∀ m ∈ l, ∃ u ∈ List.zipWith Max.max l f, m ≤ u := by
  intro l
  induction l with
  | nil => intro f _ m h; exact absurd h (List.not_mem_nil m)
  | cons a l2 ih =>
      intro f hlen m h
      cases f with
      | nil => simp at hlen
      | cons b f2 =>
          rcases List.mem_cons.mp h with rfl | h2
          · exact ⟨Max.max m b, List.mem_cons_self _ _, le_max_left m b⟩
          · obtain ⟨u, hu, hle⟩ := ih f2 (Nat.le_of_succ_le_succ hlen) m h2
            exact ⟨u, List.mem_cons_of_mem _ hu, hle⟩

theorem zipmax_right_cover : ∀ (l f : List ℚ), f.length ≤ l.length →
    ∀ v ∈ f, ∃ u ∈ List.zipWith Max.max l f, v ≤ u := by
  intro l
  induction l with
  | nil =>
      intro f hlen v h
      cases f with
      | nil => exact absurd h (List.not_mem_nil v)
      | cons b f2 => simp at hlen
  | cons a l2 ih =>
      intro f hlen v h
      cases f with
      | nil => exact absurd h (List.not_mem_nil v)
      | cons b f2 =>
          rcases List.mem_cons.mp h with rfl | h2
          · exact ⟨Max.max a v, List.mem_cons_self _ _, le_max_right a v⟩
          · obtain ⟨u, hu, hle⟩ := ih f2 (Nat.le_of_succ_le_succ hlen) v h2
            exact ⟨u, List.mem_cons_of_mem _ hu, hle⟩

theorem list_set_at_prefix_length {α : Type} : ∀ (l1 : List α) (b : α) (l2 : List α) (c : α),
    (l1 ++ b :: l2).set l1.length c = l1 ++ c :: l2 := by
  intro l1
  induction l1 with
  | nil => intro b l2 c; rfl
  | cons a t ih => intro b l2 c; simp [List.set_cons_succ, ih]

/-- `writeLanes` on a buffer made of a fully written prefix followed by
unwritten entries appends the lane values to the written prefix. -/
theorem writeLanes_shape : ∀ (f vals : List ℚ) (pad : ℕ),
    writeLanes (vals.map some ++ List.replicate (f.length + pad) none) vals.length f
      = (vals ++ f).map some ++ List.replicate pad none := by
  intro f
  induction f with
  | nil => intro vals pad; simp [writeLanes]
  | cons v vs ih =>
      intro vals pad
      have hrep : List.replicate (List.length (v :: vs) + pad) (none : Option ℚ)
          = none :: List.replicate (vs.length + pad) none := by
        rw [List.length_cons, Nat.succ_add, List.replicate_succ]
      rw [writeLanes, hrep]
      have hset : (vals.map some ++ (none : Option ℚ) :: List.replicate (vs.length + pad) none).set
          vals.length (some v)
          = vals.map some ++ some v :: List.replicate (vs.length + pad) none := by
        have := list_set_at_prefix_length (vals.map some) (none : Option ℚ)
          (List.replicate (vs.length + pad) none) (some v)
        rwa [List.length_map] at this
      rw [hset]
      have harr : vals.map some ++ some v :: List.replicate (vs.length + pad) none
          = (vals ++ [v]).map some ++ List.replicate (vs.length + pad) none := by
        simp
      have hlen : vals.length + 1 = (vals ++ [v]).length := by simp
      rw [harr, hlen, ih (vals ++ [v]) pad]
      simp

/-- Shape invariant of a driver state: the buffer is a fully written prefix
holding `vals` followed by `pad` unwritten entries, the write index sits at
the end of the prefix, and the vector accumulators have `N` lanes. -/
def GOk (N : ℕ) (st : GState) (vals : List ℚ) (pad : ℕ) : Prop :=
  st.result = vals.map some ++ List.replicate pad none ∧
  st.i = vals.length ∧
  st.minS.length = N ∧
  st.maxS.length = N

/-- Relation between a driver state before and after a stretch of the loop
that wrote the values `nv`: the min accumulators only become more binding,
every newly written value is dominated by some accumulator entry, and every
accumulator entry is an old entry or a newly written value. -/
def MinOk (old new : GState) (nv : List ℚ) : Prop :=
  (∀ v : ℚ, (old.minV ≤ v ∨ ∃ m ∈ old.minS, m ≤ v) →
    (new.minV ≤ v ∨ ∃ m ∈ new.minS, m ≤ v)) ∧
  (∀ v ∈ nv, new.minV ≤ v ∨ ∃ m ∈ new.minS, m ≤ v) ∧
  (new.minV = old.minV ∨ new.minV ∈ nv) ∧
  (∀ m ∈ new.minS, m ∈ old.minS ∨ m ∈ nv)

/-- Dual of `MinOk` for the max accumulators. -/
def MaxOk (old new : GState) (nv : List ℚ) : Prop :=
  (∀ v : ℚ, (v ≤ old.maxV ∨ ∃ m ∈ old.maxS, v ≤ m) →
    (v ≤ new.maxV ∨ ∃ m ∈ new.maxS, v ≤ m)) ∧
  (∀ v ∈ nv, v ≤ new.maxV ∨ ∃ m ∈ new.maxS, v ≤ m) ∧
  (new.maxV = old.maxV ∨ new.maxV ∈ nv) ∧
  (∀ m ∈ new.maxS, m ∈ old.maxS ∨ m ∈ nv)

theorem minOk_id (st : GState) : MinOk st st [] :=
  ⟨fun _ h => h, fun v h => absurd h (List.not_mem_nil v), Or.inl (Eq.refl st.minV),
    fun _ h => Or.inl h⟩

theorem maxOk_id (st : GState) : MaxOk st st [] :=
  ⟨fun _ h => h, fun v h => absurd h (List.not_mem_nil v), Or.inl (Eq.refl st.maxV),
    fun _ h => Or.inl h⟩

theorem minOk_trans {a b c : GState} {nv1 nv2 : List ℚ}
    (h1 : MinOk a b nv1) (h2 : MinOk b c nv2) : MinOk a c (nv1 ++ nv2) := by
  refine ⟨fun v hv => h2.1 v (h1.1 v hv), ?_, ?_, ?_⟩
  · intro v hv
    rcases List.mem_append.mp hv with hv1 | hv2
    · exact h2.1 v (h1.2.1 v hv1)
    · exact h2.2.1 v hv2
  · rcases h2.2.2.1 with h | h
    · rcases h1.2.2.1 with h0 | h0
      · exact Or.inl (h.trans h0)
      · exact Or.inr (List.mem_append.mpr (Or.inl (h ▸ h0)))
    · exact Or.inr (List.mem_append.mpr (Or.inr h))
  · intro m hm
    rcases h2.2.2.2 m hm with h | h
    · rcases h1.2.2.2 m h with h0 | h0
      · exact Or.inl h0
      · exact Or.inr (List.mem_append.mpr (Or.inl h0))
    · exact Or.inr (List.mem_append.mpr (Or.inr h))

theorem maxOk_trans {a b c : GState} {nv1 nv2 : List ℚ}
    (h1 : MaxOk a b nv1) (h2 : MaxOk b c nv2) : MaxOk a c (nv1 ++ nv2) := by
  refine ⟨fun v hv => h2.1 v (h1.1 v hv), ?_, ?_, ?_⟩
  · intro v hv
    rcases List.mem_append.mp hv with hv1 | hv2
    · exact h2.1 v (h1.2.1 v hv1)
    · exact h2.2.1 v hv2
  · rcases h2.2.2.1 with h | h
    · rcases h1.2.2.1 with h0 | h0
      · exact Or.inl (h.trans h0)
      · exact Or.inr (List.mem_append.mpr (Or.inl (h ▸ h0)))
    · exact Or.inr (List.mem_append.mpr (Or.inr h))
  · intro m hm
    rcases h2.2.2.2 m hm with h | h
    · rcases h1.2.2.2 m h with h0 | h0
      · exact Or.inl h0
      · exact Or.inr (List.mem_append.mpr (Or.inl h0))
    · exact Or.inr (List.mem_append.mpr (Or.inr h))

/-- Effect of the remainder loop: the values are appended to the buffer and
folded into the scalar accumulators only. -/
theorem writeScalars_spec : ∀ (f : List ℚ) (N : ℕ) (st : GState) (vals : List ℚ) (pad : ℕ),
    GOk N st vals (f.length + pad) →
    GOk N (writeScalars f st) (vals ++ f) pad ∧
    MinOk st (writeScalars f st) f ∧
    MaxOk st (writeScalars f st) f := by
  intro f
  induction f with
  | nil =>
      intro N st vals pad h
      rw [List.length_nil, Nat.zero_add] at h
      simpa [writeScalars] using ⟨h, minOk_id st, maxOk_id st⟩
  | cons v vs ih =>
      intro N st vals pad h
      obtain ⟨hres, hi, hminl, hmaxl⟩ := h
      set st1 : GState :=
        { st with
          result := st.result.set st.i (some v)
          i := st.i + 1
          minV := if v < st.minV then v else st.minV
          maxV := if st.maxV < v then v else st.maxV } with hst1
      have hok1 : GOk N st1 (vals ++ [v]) (vs.length + pad) := by
        refine ⟨?_, ?_, hminl, hmaxl⟩
        · have hrep : List.replicate (List.length (v :: vs) + pad) (none : Option ℚ)
              = none :: List.replicate (vs.length + pad) none := by
            rw [List.length_cons, Nat.succ_add, List.replicate_succ]
          have hset : (vals.map some ++ (none : Option ℚ) ::
              List.replicate (vs.length + pad) none).set vals.length (some v)
              = vals.map some ++ some v :: List.replicate (vs.length + pad) none := by
            have := list_set_at_prefix_length (vals.map some) (none : Option ℚ)
              (List.replicate (vs.length + pad) none) (some v)
            rwa [List.length_map] at this
          show st.result.set st.i (some v) = _
          rw [hres, hrep, hi, hset]
          simp
        · show st.i + 1 = (vals ++ [v]).length
          rw [hi]; simp
      have hmin1 : MinOk st st1 [v] := by
        refine ⟨?_, ?_, ?_, ?_⟩
        · intro w hw
          rcases hw with hw | hw
          · exact Or.inl (le_trans (ifmin_le_init st.minV v) hw)
          · exact Or.inr hw
        · intro w hw
          rcases List.mem_cons.mp hw with rfl | hw
          · exact Or.inl (ifmin_le_new st.minV w)
          · exact absurd hw (List.not_mem_nil w)
        · have hv : st1.minV = if v < st.minV then v else st.minV := rfl
          rw [hv]
          split
          · exact Or.inr (List.mem_singleton.mpr rfl)
          · exact Or.inl rfl
        · intro m hm; exact Or.inl hm
      have hmax1 : MaxOk st st1 [v] := by
        refine ⟨?_, ?_, ?_, ?_⟩
        · intro w hw
          rcases hw with hw | hw
          · exact Or.inl (le_trans hw (ifmax_init_le st.maxV v))
          · exact Or.inr hw
        · intro w hw
          rcases List.mem_cons.mp hw with rfl | hw
          · exact Or.inl (ifmax_new_le st.maxV w)
          · exact absurd hw (List.not_mem_nil w)
        · have hv : st1.maxV = if st.maxV < v then v else st.maxV := rfl
          rw [hv]
          split
          · exact Or.inr (List.mem_singleton.mpr rfl)
          · exact Or.inl rfl
        · intro m hm; exact Or.inl hm
      obtain ⟨hok2, hmin2, hmax2⟩ := ih N st1 (vals ++ [v]) pad hok1
      have heq : writeScalars (v :: vs) st = writeScalars vs st1 := rfl
      refine ⟨?_, ?_, ?_⟩
      · rw [heq]
        have : vals ++ v :: vs = (vals ++ [v]) ++ vs := by simp
        rw [this]
        exact hok2
      · rw [heq]
        have : (v :: vs : List ℚ) = [v] ++ vs := rfl
        rw [this]
        exact minOk_trans hmin1 hmin2
      · rw [heq]
        have : (v :: vs : List ℚ) = [v] ++ vs := rfl
        rw [this]
        exact maxOk_trans hmax1 hmax2

/-- Effect of the full-block loop: `k * N` values are appended to the buffer
and folded lane-wise into the vector accumulators; the coordinate vector
keeps its `N` lanes. -/
theorem fullBlocksAux_spec (e : ℚ → ℚ) (N : ℕ) :
    ∀ (k : ℕ) (xs : List ℚ) (st : GState) (vals : List ℚ) (pad : ℕ),
    xs.length = N → GOk N st vals (k * N + pad) →
    (fullBlocksAux e N k xs st).2.length = N ∧
    ∃ nv : List ℚ, nv.length = k * N ∧ (∀ v ∈ nv, ∃ t : ℚ, v = e t) ∧
      GOk N (fullBlocksAux e N k xs st).1 (vals ++ nv) pad ∧
      MinOk st (fullBlocksAux e N k xs st).1 nv ∧
      MaxOk st (fullBlocksAux e N k xs st).1 nv := by
  intro k
  induction k with
  | zero =>
      intro xs st vals pad hxs hok
      rw [Nat.zero_mul, Nat.zero_add] at hok
      exact ⟨hxs, [], by simp, by simp, by simpa using hok, minOk_id st, maxOk_id st⟩
  | succ k ih =>
      intro xs st vals pad hxs hok
      obtain ⟨hres, hi, hminl, hmaxl⟩ := hok
      set f : List ℚ := xs.map e with hfdef
      have hf : f.length = N := by rw [hfdef, List.length_map, hxs]
      set st1 : GState :=
        { st with
          maxS := List.zipWith Max.max st.maxS f
          minS := List.zipWith Min.min st.minS f
          result := writeLanes st.result st.i f
          i := st.i + N } with hst1
      have hok1 : GOk N st1 (vals ++ f) (k * N + pad) := by
      
        refine ⟨?_, ?_, ?_, ?_⟩
        · show writeLanes st.result st.i f = _
          have hcount : (k + 1) * N + pad = f.length + (k * N + pad) := by
            rw [hf]; ring
          rw [hres, hi, hcount, writeLanes_shape]
        · show st.i + N = (vals ++ f).length
          rw [hi, List.length_append, hf]
        · show (List.zipWith Min.min st.minS f).length = N
          rw [List.length_zipWith, hminl, hf, Nat.min_self]
        · show (List.zipWith Max.max st.maxS f).length = N
          rw [List.length_zipWith, hmaxl, hf, Nat.min_self]
      have hmin1 : MinOk st st1 f := by
        refine ⟨?_, ?_, Or.inl (Eq.refl st.minV), ?_⟩
        · intro w hw
          rcases hw with hw | ⟨m, hm, hmw⟩
          · exact Or.inl hw
          · obtain ⟨u, hu, hum⟩ := zipmin_left_cover st.minS f (by rw [hminl, hf]) m hm
            exact Or.inr ⟨u, hu, hum.trans hmw⟩
        · intro v hv
          obtain ⟨u, hu, huv⟩ := zipmin_right_cover st.minS f (by rw [hminl, hf]) v hv
          exact Or.inr ⟨u, hu, huv⟩
        · exact zipmin_mem st.minS f
      have hmax1 : MaxOk st st1 f := by
        refine ⟨?_, ?_, Or.inl (Eq.refl st.maxV), ?_⟩
        · intro w hw
          rcases hw with hw | ⟨m, hm, hmw⟩
          · exact Or.inl hw
          · obtain ⟨u, hu, hum⟩ := zipmax_left_cover st.maxS f (by rw [hmaxl, hf]) m hm
            exact Or.inr ⟨u, hu, hmw.trans hum⟩
        · intro v hv
          obtain ⟨u, hu, huv⟩ := zipmax_right_cover st.maxS f (by rw [hmaxl, hf]) v hv
          exact Or.inr ⟨u, hu, huv⟩
        · exact zipmax_mem st.maxS f
      have hxs2 : (xs.map fun t => t + (N : ℚ)).length = N := by
        rw [List.length_map, hxs]
      obtain ⟨hlen2, nv2, hnv2len, hnv2val, hok2, hmin2, hmax2⟩ :=
        ih (xs.map fun t => t + (N : ℚ)) st1 (vals ++ f) pad hxs2 hok1
      have heq : fullBlocksAux e N (k + 1) xs st
          = fullBlocksAux e N k (xs.map fun t => t + (N : ℚ)) st1 := rfl
      refine ⟨heq ▸ hlen2, f ++ nv2, ?_, ?_, ?_, ?_, ?_⟩
      · rw [List.length_append, hf, hnv2len]; ring
      · intro v hv
        rcases List.mem_append.mp hv with hv | hv
        · obtain ⟨t, _, rfl⟩ := List.mem_map.mp hv
          exact ⟨t, rfl⟩
        · exact hnv2val v hv
      · rw [heq]
        have : vals ++ (f ++ nv2) = (vals ++ f) ++ nv2 := by rw [List.append_assoc]
        rw [this]
        exact hok2
      · rw [heq]
        exact minOk_trans hmin1 hmin2
      · rw [heq]
        exact maxOk_trans hmax1 hmax2

/-- A lane-vector has `N` entries. -/
theorem lanes_length (N : ℕ) (t0 : ℚ) : (lanes N t0).length = N := by
  simp only [lanes, List.length_map, List.length_range]

/-- Effect of one innermost driver line of `extent` cells: exactly `extent`
values of the evaluated pipeline are appended to the buffer, and the min/max
accumulators absorb exactly those values — the excess lanes of a final
partial block are neither written nor folded. -/
theorem genLine_spec (e : ℚ → ℚ) (N extent : ℕ) (t0 : ℚ) (st : GState) (vals : List ℚ)
    (pad : ℕ) (hN : 0 < N) (hok : GOk N st vals (extent + pad)) :
    ∃ nv : List ℚ, nv.length = extent ∧ (∀ v ∈ nv, ∃ t : ℚ, v = e t) ∧
      GOk N (genLine e N extent t0 st) (vals ++ nv) pad ∧
      MinOk st (genLine e N extent t0 st) nv ∧
      MaxOk st (genLine e N extent t0 st) nv := by
  have hkr : extent / N * N + extent % N = extent := Nat.div_add_mod' extent N
  have hok2 : GOk N st vals (extent / N * N + (extent % N + pad)) := by
    have : extent / N * N + (extent % N + pad) = extent + pad := by omega
    rwa [this]
  obtain ⟨hxslen, nv1, hnv1len, hnv1val, hok3, hmin3, hmax3⟩ :=
    fullBlocksAux_spec e N (extent / N) (lanes N t0) st vals (extent % N + pad)
      (lanes_length N t0) hok2
  by_cases hrem : extent % N = 0
  · have heq : genLine e N extent t0 st = (fullBlocksAux e N (extent / N) (lanes N t0) st).1 := by
      unfold genLine
      rw [if_pos hrem]
    refine ⟨nv1, ?_, hnv1val, ?_, ?_, ?_⟩
    · omega
    · rw [heq]
      have : extent % N + pad = pad := by omega
      rwa [this] at hok3
    · rw [heq]; exact hmin3
    · rw [heq]; exact hmax3
  · set p := fullBlocksAux e N (extent / N) (lanes N t0) st with hp
    set f2 : List ℚ := (p.2.map e).take (extent % N) with hf2
    have heq : genLine e N extent t0 st = writeScalars f2 p.1 := by
      unfold genLine
      rw [if_neg hrem]
    have hf2len : f2.length = extent % N := by
      rw [hf2, List.length_take, List.length_map, hxslen]
      exact Nat.min_eq_left (Nat.le_of_lt (Nat.mod_lt extent hN))
    have hok4 : GOk N p.1 (vals ++ nv1) (f2.length + pad) := by
      rwa [hf2len]
    obtain ⟨hok5, hmin5, hmax5⟩ := writeScalars_spec f2 N p.1 (vals ++ nv1) pad hok4
    refine ⟨nv1 ++ f2, ?_, ?_, ?_, ?_, ?_⟩
    · rw [List.length_append, hnv1len, hf2len]; omega
    · intro v hv
      rcases List.mem_append.mp hv with hv | hv
      · exact hnv1val v hv
      · obtain ⟨t, _, rfl⟩ := List.mem_map.mp (List.mem_of_mem_take hv)
        exact ⟨t, rfl⟩
    · rw [heq]
      have : vals ++ (nv1 ++ f2) = (vals ++ nv1) ++ f2 := by rw [List.append_assoc]
      rw [this]
      exact hok5
    · rw [heq]; exact minOk_trans hmin3 hmin5
    · rw [heq]; exact maxOk_trans hmax3 hmax5

/-- Effect of the `generate_2d` row loop: `h * width` values of `e2` are
appended, the accumulators absorbing exactly those values. -/
theorem gen2Rows_spec (e2 : ℚ → ℚ → ℚ) (N width : ℕ) (x : ℚ) (hN : 0 < N) :
    ∀ (h : ℕ) (y : ℚ) (st : GState) (vals : List ℚ) (pad : ℕ),
    GOk N st vals (h * width + pad) →
    ∃ nv : List ℚ, nv.length = h * width ∧ (∀ v ∈ nv, ∃ a b : ℚ, v = e2 a b) ∧
      GOk N (gen2Rows e2 N width x h y st) (vals ++ nv) pad ∧
      MinOk st (gen2Rows e2 N width x h y st) nv ∧
      MaxOk st (gen2Rows e2 N width x h y st) nv := by
  intro h
  induction h with
  | zero =>
      intro y st vals pad hok
      rw [Nat.zero_mul, Nat.zero_add] at hok
      exact ⟨[], by simp, by simp, by simpa using hok, minOk_id st, maxOk_id st⟩
  | succ h ih =>
      intro y st vals pad hok
      have hok2 : GOk N st vals (width + (h * width + pad)) := by
        have : width + (h * width + pad) = (h + 1) * width + pad := by ring
        rwa [this]
      obtain ⟨nv1, hnv1len, hnv1val, hok3, hmin3, hmax3⟩ :=
        genLine_spec (fun t => e2 t y) N width x st vals (h * width + pad) hN hok2
      obtain ⟨nv2, hnv2len, hnv2val, hok4, hmin4, hmax4⟩ :=
        ih (y + 1) (genLine (fun t => e2 t y) N width x st) (vals ++ nv1) pad hok3
      have heq : gen2Rows e2 N width x (h + 1) y st
          = gen2Rows e2 N width x h (y + 1) (genLine (fun t => e2 t y) N width x st) := rfl
      refine ⟨nv1 ++ nv2, ?_, ?_, ?_, ?_, ?_⟩
      · rw [List.length_append, hnv1len, hnv2len]; ring
      · intro v hv
        rcases List.mem_append.mp hv with hv | hv
        · obtain ⟨t, rfl⟩ := hnv1val v hv
          exact ⟨t, y, rfl⟩
        · exact hnv2val v hv
      · rw [heq]
        have : vals ++ (nv1 ++ nv2) = (vals ++ nv1) ++ nv2 := by rw [List.append_assoc]
        rw [this]
        exact hok4
      · rw [heq]; exact minOk_trans hmin3 hmin4
      · rw [heq]; exact maxOk_trans hmax3 hmax4

/-- Effect of the `generate_3d` depth loop at a fixed `x`. -/
theorem gen3Depth_spec (e3 : ℚ → ℚ → ℚ → ℚ) (N height : ℕ) (y xc : ℚ) (hN : 0 < N) :
    ∀ (d : ℕ) (z : ℚ) (st : GState) (vals : List ℚ) (pad : ℕ),
    GOk N st vals (d * height + pad) →
    ∃ nv : List ℚ, nv.length = d * height ∧ (∀ v ∈ nv, ∃ a b c : ℚ, v = e3 a b c) ∧
      GOk N (gen3Depth e3 N height y xc d z st) (vals ++ nv) pad ∧
      MinOk st (gen3Depth e3 N height y xc d z st) nv ∧
      MaxOk st (gen3Depth e3 N height y xc d z st) nv := by
  intro d
  induction d with
  | zero =>
      intro z st vals pad hok
      rw [Nat.zero_mul, Nat.zero_add] at hok
      exact ⟨[], by simp, by simp, by simpa using hok, minOk_id st, maxOk_id st⟩
  | succ d ih =>
      intro z st vals pad hok
      have hok2 : GOk N st vals (height + (d * height + pad)) := by
        have : height + (d * height + pad) = (d + 1) * height + pad := by ring
        rwa [this]
      obtain ⟨nv1, hnv1len, hnv1val, hok3, hmin3, hmax3⟩ :=
        genLine_spec (fun t => e3 xc t z) N height y st vals (d * height + pad) hN hok2
      obtain ⟨nv2, hnv2len, hnv2val, hok4, hmin4, hmax4⟩ :=
        ih (z + 1) (genLine (fun t => e3 xc t z) N height y st) (vals ++ nv1) pad hok3
      have heq : gen3Depth e3 N height y xc (d + 1) z st
          = gen3Depth e3 N height y xc d (z + 1) (genLine (fun t => e3 xc t z) N height y st) :=
        rfl
      refine ⟨nv1 ++ nv2, ?_, ?_, ?_, ?_, ?_⟩
      · rw [List.length_append, hnv1len, hnv2len]; ring
      · intro v hv
        rcases List.mem_append.mp hv with hv | hv
        · obtain ⟨t, rfl⟩ := hnv1val v hv
          exact ⟨xc, t, z, rfl⟩
        · exact hnv2val v hv
      · rw [heq]
        have : vals ++ (nv1 ++ nv2) = (vals ++ nv1) ++ nv2 := by rw [List.append_assoc]
        rw [this]
        exact hok4
      · rw [heq]; exact minOk_trans hmin3 hmin4
      · rw [heq]; exact maxOk_trans hmax3 hmax4

/-- Effect of the `generate_3d` outer width loop. -/
theorem gen3Width_spec (e3 : ℚ → ℚ → ℚ → ℚ) (N height depth : ℕ) (y z : ℚ) (hN : 0 < N) :
    ∀ (w : ℕ) (xc : ℚ) (st : GState) (vals : List ℚ) (pad : ℕ),
    GOk N st vals (w * (depth * height) + pad) →
    ∃ nv : List ℚ, nv.length = w * (depth * height) ∧
      (∀ v ∈ nv, ∃ a b c : ℚ, v = e3 a b c) ∧
      GOk N (gen3Width e3 N height depth y z w xc st) (vals ++ nv) pad ∧
      MinOk st (gen3Width e3 N height depth y z w xc st) nv ∧
      MaxOk st (gen3Width e3 N height depth y z w xc st) nv := by
  intro w
  induction w with
  | zero =>
      intro xc st vals pad hok
      rw [Nat.zero_mul, Nat.zero_add] at hok
      exact ⟨[], by simp, by simp, by simpa using hok, minOk_id st, maxOk_id st⟩
  | succ w ih =>
      intro xc st vals pad hok
      have hok2 : GOk N st vals (depth * height + (w * (depth * height) + pad)) := by
        have : depth * height + (w * (depth * height) + pad)
            = (w + 1) * (depth * height) + pad := by ring
        rwa [this]
      obtain ⟨nv1, hnv1len, hnv1val, hok3, hmin3, hmax3⟩ :=
        gen3Depth_spec e3 N height y xc hN depth z st vals (w * (depth * height) + pad) hok2
      obtain ⟨nv2, hnv2len, hnv2val, hok4, hmin4, hmax4⟩ :=
        ih (xc + 1) (gen3Depth e3 N height y xc depth z st) (vals ++ nv1) pad hok3
      have heq : gen3Width e3 N height depth y z (w + 1) xc st
          = gen3Width e3 N height depth y z w (xc + 1) (gen3Depth e3 N height y xc depth z st) :=
        rfl
      refine ⟨nv1 ++ nv2, ?_, ?_, ?_, ?_, ?_⟩
      · rw [List.length_append, hnv1len, hnv2len]; ring
      · intro v hv
        rcases List.mem_append.mp hv with hv | hv
        · exact hnv1val v hv
        · exact hnv2val v hv
      · rw [heq]
        have : vals ++ (nv1 ++ nv2) = (vals ++ nv1) ++ nv2 := by rw [List.append_assoc]
        rw [this]
        exact hok4
      · rw [heq]; exact minOk_trans hmin3 hmin4
      · rw [heq]; exact maxOk_trans hmax3 hmax4

/-- The fresh driver state satisfies the shape invariant with an empty
written prefix. -/
theorem initState_ok (size N : ℕ) : GOk N (initState size N) [] size := by
  refine ⟨?_, rfl, ?_, ?_⟩
  · simp [initState]
  · simp [initState]
  · simp [initState]

/-- Merging the vector accumulator into the scalar remainder accumulator is a
left fold of `min`. -/
theorem mergeMin_eq (st : GState) : mergeMin st = st.minS.foldl Min.min st.minV :=
  foldl_ifmin_eq_foldl_min st.minS st.minV

/-- Merging for the maximum is a left fold of `max`. -/
theorem mergeMax_eq (st : GState) : mergeMax st = st.maxS.foldl Max.max st.maxV :=
  foldl_ifmax_eq_foldl_max st.maxS st.maxV

/-- If a whole generation run wrote the values `nv`, none exceeding the
largest finite `f32`, and `nv` is nonempty, then the merged reported minimum
is the true minimum of `nv`. -/
theorem reported_min_exact (size N : ℕ) (fin : GState) (nv : List ℚ)
    (hmin : MinOk (initState size N) fin nv)
    (hbd : ∀ v ∈ nv, v ≤ f32MAX) (hne : nv ≠ []) :
    mergeMin fin ∈ nv ∧ ∀ v ∈ nv, mergeMin fin ≤ v := by
  have hlow : ∀ v ∈ nv, mergeMin fin ≤ v := by
    intro v hv
    rw [mergeMin_eq]
    rcases hmin.2.1 v hv with h | ⟨m, hm, hmv⟩
    · exact (foldl_min_le_init fin.minS fin.minV).trans h
    · exact (foldl_min_le_mem fin.minS fin.minV m hm).trans hmv
  have hmem : mergeMin fin = f32MAX ∨ mergeMin fin ∈ nv := by
    rw [mergeMin_eq]
    rcases foldl_min_mem fin.minS fin.minV with h | h
    · rcases hmin.2.2.1 with h0 | h0
      · exact Or.inl (h.trans h0)
      · exact Or.inr (by rw [h]; exact h0)
    · rcases hmin.2.2.2 _ h with h0 | h0
      · exact Or.inl (List.eq_of_mem_replicate h0)
      · exact Or.inr h0
  refine ⟨?_, hlow⟩
  rcases hmem with h | h
  · obtain ⟨v0, hv0⟩ := List.exists_mem_of_ne_nil nv hne
    have h1 : f32MAX ≤ v0 := h ▸ hlow v0 hv0
    have h2 : v0 = f32MAX := le_antisymm (hbd v0 hv0) h1
    rw [h, ← h2]
    exact hv0
  · exact h

/-- Dual statement for the reported maximum. -/
theorem reported_max_exact (size N : ℕ) (fin : GState) (nv : List ℚ)
    (hmax : MaxOk (initState size N) fin nv)
    (hbd : ∀ v ∈ nv, f32MIN ≤ v) (hne : nv ≠ []) :
    mergeMax fin ∈ nv ∧ ∀ v ∈ nv, v ≤ mergeMax fin := by
  have hhigh : ∀ v ∈ nv, v ≤ mergeMax fin := by
    intro v hv
    rw [mergeMax_eq]
    rcases hmax.2.1 v hv with h | ⟨m, hm, hmv⟩
    · exact h.trans (foldl_max_init_le fin.maxS fin.maxV)
    · exact hmv.trans (foldl_max_mem_le fin.maxS fin.maxV m hm)
  have hmem : mergeMax fin = f32MIN ∨ mergeMax fin ∈ nv := by
    rw [mergeMax_eq]
    rcases foldl_max_mem fin.maxS fin.maxV with h | h
    · rcases hmax.2.2.1 with h0 | h0
      · exact Or.inl (h.trans h0)
      · exact Or.inr (by rw [h]; exact h0)
    · rcases hmax.2.2.2 _ h with h0 | h0
      · exact Or.inl (List.eq_of_mem_replicate h0)
      · exact Or.inr h0
  refine ⟨?_, hhigh⟩
  rcases hmem with h | h
  · obtain ⟨v0, hv0⟩ := List.exists_mem_of_ne_nil nv hne
    have h1 : v0 ≤ f32MIN := h ▸ hhigh v0 hv0
    have h2 : v0 = f32MIN := le_antisymm h1 (hbd v0 hv0)
    rw [h, ← h2]
    exact hv0
  · exact h

/-- Reading back a fully written buffer recovers the written values. -/
theorem extractBuf_map_some (l : List ℚ) : extractBuf (l.map some) = l := by
  simp only [extractBuf, List.map_map]
  have h : ((fun o : Option ℚ => o.getD 0) ∘ some) = id := by
    funext a
    rfl
  rw [h, List.map_id]

/-! ## Claim theorems: grid drivers -/

/-- Transport of the shape invariant along an arithmetic identity of the
unwritten-entry count. -/
theorem GOk_pad_eq {N : ℕ} {st : GState} {vals : List ℚ} {p q : ℕ} (h : p = q)
    (hok : GOk N st vals p) : GOk N st vals q := h ▸ hok

/-- C5: for every pipeline and all extents (zero and non-lane-multiple
extents included), the three drivers return buffers of exactly `width`,
`width * height` and `width * height * depth` entries respectively, with
every entry written before return. -/
theorem generate_buffers_complete (N : ℕ) (hN : 0 < N)
    (e1 : ℚ → ℚ) (e2 : ℚ → ℚ → ℚ) (e3 : ℚ → ℚ → ℚ → ℚ)
    (x y z : ℚ) (width height depth : ℕ) :
    ((generate_1d_raw e1 x width N).result.length = width ∧
      ∀ o ∈ (generate_1d_raw e1 x width N).result, ∃ q : ℚ, o = some q) ∧
    ((generate_2d_raw e2 x y width height N).result.length = width * height ∧
      ∀ o ∈ (generate_2d_raw e2 x y width height N).result, ∃ q : ℚ, o = some q) ∧
    ((generate_3d_raw e3 x y z width height depth N).result.length = width * height * depth ∧
      ∀ o ∈ (generate_3d_raw e3 x y z width height depth N).result, ∃ q : ℚ, o = some q) := by
  refine ⟨?_, ?_, ?_⟩
  · have h0 : GOk N (initState width N) [] (width + 0) := by
      simpa using initState_ok width N
    obtain ⟨nv, hlen, _, hok, _, _⟩ :=
      genLine_spec e1 N width x (initState width N) [] 0 hN h0
    have hres : (generate_1d_raw e1 x width N).result = nv.map some := by
      have := hok.1
      simpa using this
    constructor
    · rw [hres, List.length_map, hlen]
    · intro o ho
      rw [hres] at ho
      obtain ⟨q, _, rfl⟩ := List.mem_map.mp ho
      exact ⟨q, rfl⟩
  · have h0 : GOk N (initState (width * height) N) [] (height * width + 0) :=
      GOk_pad_eq (by ring) (initState_ok (width * height) N)
    obtain ⟨nv, hlen, _, hok, _, _⟩ :=
      gen2Rows_spec e2 N width x hN height y (initState (width * height) N) [] 0 h0
    have hres : (generate_2d_raw e2 x y width height N).result = nv.map some := by
      have := hok.1
      simpa using this
    constructor
    · rw [hres, List.length_map, hlen]; ring
    · intro o ho
      rw [hres] at ho
      obtain ⟨q, _, rfl⟩ := List.mem_map.mp ho
      exact ⟨q, rfl⟩
  · have h0 : GOk N (initState (width * height * depth) N) []
        (width * (depth * height) + 0) :=
      GOk_pad_eq (by ring) (initState_ok (width * height * depth) N)
    obtain ⟨nv, hlen, _, hok, _, _⟩ :=
      gen3Width_spec e3 N height depth y z hN width x
        (initState (width * height * depth) N) [] 0 h0
    have hres : (generate_3d_raw e3 x y z width height depth N).result = nv.map some := by
      have := hok.1
      simpa using this
    constructor
    · rw [hres, List.length_map, hlen]; ring
    · intro o ho
      rw [hres] at ho
      obtain ⟨q, _, rfl⟩ := List.mem_map.mp ho
      exact ⟨q, rfl⟩

/-- Witness for C5 at lane width 2 with extents 3, 3x2 and 3x2x2 (the
1-dimensional extent 3 exercises the non-lane-multiple remainder path). -/
theorem generate_buffers_complete_witness :
    (generate_1d_raw (fun t => t) 0 3 2).result.length = 3 ∧
    (generate_2d_raw (fun a _ => a) 0 0 3 2 2).result.length = 3 * 2 ∧
    (generate_3d_raw (fun a _ _ => a) 0 0 0 3 2 2 2).result.length = 3 * 2 * 2 := by
  have h := generate_buffers_complete 2 (by norm_num) (fun t => t) (fun a _ => a)
    (fun a _ _ => a) 0 0 0 3 2 2
  exact ⟨h.1.1, h.2.1.1, h.2.2.1⟩

/-- C4: for pipelines whose values stay within the finite `f32` range and
nonzero extents, the scalar min and max reported by each driver are exactly
the true minimum and maximum of the returned buffer — the excess lanes of a
final partial block never contribute. -/
theorem generate_minmax_exact (N : ℕ) (hN : 0 < N)
    (e1 : ℚ → ℚ) (e2 : ℚ → ℚ → ℚ) (e3 : ℚ → ℚ → ℚ → ℚ) (x y z : ℚ)
    (width height depth : ℕ) (hw : 0 < width) (hh : 0 < height) (hd : 0 < depth)
    (hb1 : ∀ t : ℚ, f32MIN ≤ e1 t ∧ e1 t ≤ f32MAX)
    (hb2 : ∀ a b : ℚ, f32MIN ≤ e2 a b ∧ e2 a b ≤ f32MAX)
    (hb3 : ∀ a b c : ℚ, f32MIN ≤ e3 a b c ∧ e3 a b c ≤ f32MAX) :
    ((generate_1d e1 x width N).2.1 ∈ (generate_1d e1 x width N).1 ∧
     (∀ v ∈ (generate_1d e1 x width N).1, (generate_1d e1 x width N).2.1 ≤ v) ∧
     (generate_1d e1 x width N).2.2 ∈ (generate_1d e1 x width N).1 ∧
     (∀ v ∈ (generate_1d e1 x width N).1, v ≤ (generate_1d e1 x width N).2.2)) ∧
    ((generate_2d e2 x y width height N).2.1 ∈ (generate_2d e2 x y width height N).1 ∧
     (∀ v ∈ (generate_2d e2 x y width height N).1,
       (generate_2d e2 x y width height N).2.1 ≤ v) ∧
     (generate_2d e2 x y width height N).2.2 ∈ (generate_2d e2 x y width height N).1 ∧
     (∀ v ∈ (generate_2d e2 x y width height N).1,
       v ≤ (generate_2d e2 x y width height N).2.2)) ∧
    ((generate_3d e3 x y z width height depth N).2.1
        ∈ (generate_3d e3 x y z width height depth N).1 ∧
     (∀ v ∈ (generate_3d e3 x y z width height depth N).1,
       (generate_3d e3 x y z width height depth N).2.1 ≤ v) ∧
     (generate_3d e3 x y z width height depth N).2.2
        ∈ (generate_3d e3 x y z width height depth N).1 ∧
     (∀ v ∈ (generate_3d e3 x y z width height depth N).1,
       v ≤ (generate_3d e3 x y z width height depth N).2.2)) := by
  refine ⟨?_, ?_, ?_⟩
  · have h0 : GOk N (initState width N) [] (width + 0) := by
      simpa using initState_ok width N
    obtain ⟨nv, hlen, hval, hok, hmin, hmax⟩ :=
      genLine_spec e1 N width x (initState width N) [] 0 hN h0
    have hbuf : (generate_1d e1 x width N).1 = nv := by
      show extractBuf (generate_1d_raw e1 x width N).result = nv
      have hres : (generate_1d_raw e1 x width N).result = nv.map some := by
        have := hok.1
        simpa using this
      rw [hres, extractBuf_map_some]
    have hne : nv ≠ [] := List.length_pos.mp (by rw [hlen]; exact hw)
    have hmn := reported_min_exact width N (generate_1d_raw e1 x width N) nv hmin
      (fun v hv => by obtain ⟨t, rfl⟩ := hval v hv; exact (hb1 t).2) hne
    have hmx := reported_max_exact width N (generate_1d_raw e1 x width N) nv hmax
      (fun v hv => by obtain ⟨t, rfl⟩ := hval v hv; exact (hb1 t).1) hne
    rw [hbuf]
    exact ⟨hmn.1, hmn.2, hmx.1, hmx.2⟩
  · have h0 : GOk N (initState (width * height) N) [] (height * width + 0) :=
      GOk_pad_eq (by ring) (initState_ok (width * height) N)
    obtain ⟨nv, hlen, hval, hok, hmin, hmax⟩ :=
      gen2Rows_spec e2 N width x hN height y (initState (width * height) N) [] 0 h0
    have hbuf : (generate_2d e2 x y width height N).1 = nv := by
      show extractBuf (generate_2d_raw e2 x y width height N).result = nv
      have hres : (generate_2d_raw e2 x y width height N).result = nv.map some := by
        have := hok.1
        simpa using this
      rw [hres, extractBuf_map_some]
    have hne : nv ≠ [] := List.length_pos.mp (by
      rw [hlen]; exact Nat.mul_pos hh hw)
    have hmn := reported_min_exact (width * height) N (generate_2d_raw e2 x y width height N)
      nv hmin (fun v hv => by obtain ⟨a, b, rfl⟩ := hval v hv; exact (hb2 a b).2) hne
    have hmx := reported_max_exact (width * height) N (generate_2d_raw e2 x y width height N)
      nv hmax (fun v hv => by obtain ⟨a, b, rfl⟩ := hval v hv; exact (hb2 a b).1) hne
    rw [hbuf]
    exact ⟨hmn.1, hmn.2, hmx.1, hmx.2⟩
  · have h0 : GOk N (initState (width * height * depth) N) []
        (width * (depth * height) + 0) :=
      GOk_pad_eq (by ring) (initState_ok (width * height * depth) N)
    obtain ⟨nv, hlen, hval, hok, hmin, hmax⟩ :=
      gen3Width_spec e3 N height depth y z hN width x
        (initState (width * height * depth) N) [] 0 h0
    have hbuf : (generate_3d e3 x y z width height depth N).1 = nv := by
      show extractBuf (generate_3d_raw e3 x y z width height depth N).result = nv
      have hres : (generate_3d_raw e3 x y z width height depth N).result = nv.map some := by
        have := hok.1
        simpa using this
      rw [hres, extractBuf_map_some]
    have hne : nv ≠ [] := List.length_pos.mp (by
      rw [hlen]
      exact Nat.mul_pos hw (Nat.mul_pos hd hh))
    have hmn := reported_min_exact (width * height * depth) N
      (generate_3d_raw e3 x y z width height depth N) nv hmin
      (fun v hv => by obtain ⟨a, b, c, rfl⟩ := hval v hv; exact (hb3 a b c).2) hne
    have hmx := reported_max_exact (width * height * depth) N
      (generate_3d_raw e3 x y z width height depth N) nv hmax
      (fun v hv => by obtain ⟨a, b, c, rfl⟩ := hval v hv; exact (hb3 a b c).1) hne
    rw [hbuf]
    exact ⟨hmn.1, hmn.2, hmx.1, hmx.2⟩

/-- Witness for C4: lane width 2, extents 3 / 3x2 / 3x2x2, constant zero
pipelines; the reported minima and maxima are members of the buffers. -/
theorem generate_minmax_exact_witness :
    (generate_1d (fun _ => (0 : ℚ)) 0 3 2).2.1 ∈ (generate_1d (fun _ => (0 : ℚ)) 0 3 2).1 ∧
    (generate_1d (fun _ => (0 : ℚ)) 0 3 2).2.2 ∈ (generate_1d (fun _ => (0 : ℚ)) 0 3 2).1 ∧
    (generate_2d (fun _ _ => (0 : ℚ)) 0 0 3 2 2).2.1
      ∈ (generate_2d (fun _ _ => (0 : ℚ)) 0 0 3 2 2).1 ∧
    (generate_3d (fun _ _ _ => (0 : ℚ)) 0 0 0 3 2 2 2).2.2
      ∈ (generate_3d (fun _ _ _ => (0 : ℚ)) 0 0 0 3 2 2 2).1 := by
  have h := generate_minmax_exact 2 (by norm_num) (fun _ => (0 : ℚ)) (fun _ _ => (0 : ℚ))
    (fun _ _ _ => (0 : ℚ)) 0 0 0 3 2 2 (by norm_num) (by norm_num) (by norm_num)
    (fun t => by constructor <;> norm_num [f32MIN, f32MAX])
    (fun a b => by constructor <;> norm_num [f32MIN, f32MAX])
    (fun a b c => by constructor <;> norm_num [f32MIN, f32MAX])
  exact ⟨h.1.1, h.1.2.2.1, h.2.1.1, h.2.2.2.2.1⟩

/-- C2: the buffer of `generate_2d` is not laid out as
`index = x * height + y`.  With the pipeline that returns the x coordinate,
origin `(0, 0)` and extents `width = height = 2` (lane width 1), the buffer
is `[0, 1, 0, 1]`: the inner x loop writes consecutively, so the actual
layout is `index = y * width + x`.  The claimed layout requires the entry at
flat index `1 * height + 0 = 2` to be `e2 (0 + 1) (0 + 0) = 1`, but it is
`0`. -/
theorem generate_2d_layout_diverges :
    (generate_2d (fun a _ => a) 0 0 2 2 1).1 = [0, 1, 0, 1] ∧
    (generate_2d (fun a _ => a) 0 0 2 2 1).1.get? (1 * 2 + 0) = some 0 ∧
    (fun (a _ : ℚ) => a) (0 + 1) (0 + 0) = 1 := by
  have hbuf : (generate_2d (fun a _ => a) 0 0 2 2 1).1 = [0, 1, 0, 1] := by
    norm_num [generate_2d, generate_2d_raw, gen2Rows, genLine, fullBlocksAux, writeLanes,
      writeScalars, lanes, initState, extractBuf, List.range_succ, List.replicate_succ,
      List.set_cons_zero, List.set_cons_succ]
  refine ⟨hbuf, ?_, by norm_num⟩
  rw [hbuf]
  rfl
